import Mathlib

/-!
Verification development for the schema-normalization and filtering engine of
pv_finder_app.py (PV Finder).  The pure core of the app is embedded shallowly:
uploaded tables are lists of rows of cells, the canonical record table is a list
of records, and the query engine is a function from a table and a query value to
the filtered table.  Pandas-specific behaviour is modelled explicitly:

* a missing value is either a float NaN (a blank cell of a column present in the
  upload) or a pandas NA (a cell of a column synthesized by _ensure_required);
  astype(str) renders these as "nan" and "<NA>" respectively;
* sort_values(["PVNumber","CodeDate_num"], ascending=[True,False]) with the
  default na_position="last" is a stable lexicographic sort; a stable sort by a
  total preorder is unique, and is modelled by insertion sort;
* Series.str.contains uses regular-expression search by default; the regex
  fragment actually expressible with literal characters and the dot
  metacharacter is modelled; operands made of non-special characters behave as
  literal substrings;
* numeric parsing (float(...) and pd.to_numeric(errors="coerce")) is modelled
  for decimal literals with optional sign, fraction and exponent; the special
  spellings nan/inf and digit underscores are outside the model;
* str.lower / str.strip are modelled on ASCII, and strings are compared by
  code point as Python does.
-/

namespace PVFinder

/-- Code-point-wise lexicographic comparison of strings, as Python performs it.
Strings are compared through the lists of code points of their characters. -/
def natListLe : List Nat → List Nat → Bool
  | [], _ => true
  | _ :: _, [] => false
  | a :: xs, b :: ys => if a = b then natListLe xs ys else decide (a < b)

/-- A table cell as the app sees it after pd.read_excel: a text value, a float
NaN (blank cell of an uploaded column), or a pandas NA (cell of a column that
_ensure_required synthesized with pd.NA). -/
inductive Cell where
  | text (s : String)
  | nanMissing
  | naMissing
deriving DecidableEq, Repr

/-- astype(str) rendering of a cell: str(value), str(float nan) = "nan",
str(pd.NA) = "<NA>". -/
def Cell.render : Cell → String
  | .text s => s
  | .nanMissing => "nan"
  | .naMissing => "<NA>"

/-- The fifteen canonical fields, in the order of REQUIRED_COLUMNS. -/
inductive Field where
  | PVNumber
  | PVStatus
  | Description
  | DocumentType
  | NoteForMarketing
  | CaseTypeDescriptor
  | AirFillDescriptor
  | CodeDate
  | SalesClass
  | Size
  | Shape
  | CasesPerLayerTI
  | HILayersPerPallet
  | TotalNumberOfCasesPerPallet
  | BagsOrTraysPerLayer
deriving DecidableEq, Repr

/-- Column-header spelling of each canonical field, from REQUIRED_COLUMNS. -/
def Field.colName : Field → String
  | .PVNumber => "PVNumber"
  | .PVStatus => "PVStatus"
  | .Description => "Description"
  | .DocumentType => "DocumentType"
  | .NoteForMarketing => "NoteForMarketing"
  | .CaseTypeDescriptor => "CaseTypeDescriptor"
  | .AirFillDescriptor => "AirFillDescriptor"
  | .CodeDate => "CodeDate"
  | .SalesClass => "SalesClass"
  | .Size => "Size"
  | .Shape => "Shape"
  | .CasesPerLayerTI => "CasesPerLayer(TI)"
  | .HILayersPerPallet => "HI(Layers/Pallet)"
  | .TotalNumberOfCasesPerPallet => "TotalNumberOfCasesPerPallet"
  | .BagsOrTraysPerLayer => "BagsOrTraysPerLayer"

/-- Position of each canonical field in the canonical column order. -/
def Field.index : Field → Nat
  | .PVNumber => 0
  | .PVStatus => 1
  | .Description => 2
  | .DocumentType => 3
  | .NoteForMarketing => 4
  | .CaseTypeDescriptor => 5
  | .AirFillDescriptor => 6
  | .CodeDate => 7
  | .SalesClass => 8
  | .Size => 9
  | .Shape => 10
  | .CasesPerLayerTI => 11
  | .HILayersPerPallet => 12
  | .TotalNumberOfCasesPerPallet => 13
  | .BagsOrTraysPerLayer => 14

/-- The canonical fields in canonical order. -/
def Field.all : List Field :=
  [.PVNumber, .PVStatus, .Description, .DocumentType, .NoteForMarketing,
   .CaseTypeDescriptor, .AirFillDescriptor, .CodeDate, .SalesClass, .Size,
   .Shape, .CasesPerLayerTI, .HILayersPerPallet, .TotalNumberOfCasesPerPallet,
   .BagsOrTraysPerLayer]

/-- REQUIRED_COLUMNS from the source, verbatim. -/
def REQUIRED_COLUMNS : List String :=
  ["PVNumber", "PVStatus", "Description", "DocumentType", "NoteForMarketing",
   "CaseTypeDescriptor", "AirFillDescriptor", "CodeDate", "SalesClass", "Size",
   "Shape", "CasesPerLayer(TI)", "HI(Layers/Pallet)",
   "TotalNumberOfCasesPerPallet", "BagsOrTraysPerLayer"]

/-- ASCII lowering of a string, modelling str.lower on the ASCII fragment. -/
def lowerStr (s : String) : String := String.mk (s.data.map Char.toLower)

/-- Strip leading and trailing whitespace from a character list. -/
def trimChars (l : List Char) : List Char :=
  ((l.dropWhile Char.isWhitespace).reverse.dropWhile Char.isWhitespace).reverse

/-- Python str.strip on the ASCII fragment. -/
def trimStr (s : String) : String := String.mk (trimChars s.data)

/-- Characters that are special in a Python regular expression. -/
def isRegexSpecial (c : Char) : Bool :=
  decide (c ∈ ['.', '^', '$', '*', '+', '?', '\x7b', '\x7d', '[', ']', '\\',
               '|', '(', ')'])

/-- Regex matching of the pattern against a prefix of the haystack, for the
fragment made of literal characters and the dot metacharacter (which matches
any character except a newline, as in Python re). -/
def matchHere : List Char → List Char → Bool
  | [], _ => true
  | _ :: _, [] => false
  | c :: p, a :: s => (if c = '.' then decide (a ≠ '\n') else decide (c = a)) && matchHere p s

/-- re.search over the modelled fragment: the pattern matches at some start
position of the haystack. -/
def reSearchChars (p : List Char) : List Char → Bool
  | [] => matchHere p []
  | a :: t => matchHere p (a :: t) || reSearchChars p t

/-- Series.str.contains(pat) with its default regex=True, on the modelled
regex fragment. -/
def reSearch (pat hay : String) : Bool := reSearchChars pat.data hay.data

/-- Literal prefix test on character lists. -/
def startsEq : List Char → List Char → Bool
  | [], _ => true
  | _ :: _, [] => false
  | c :: p, a :: s => decide (c = a) && startsEq p s

/-- Literal substring test on character lists. -/
def containsChars (p : List Char) : List Char → Bool
  | [] => startsEq p []
  | a :: t => startsEq p (a :: t) || containsChars p t

/-- Literal (uninterpreted) substring containment of one string in another;
this is what the specification asserts the engine does with operands. -/
def litContains (needle hay : String) : Bool := containsChars needle.data hay.data

/-- Value of a list of decimal digit characters. -/
def digitsToNat (l : List Char) : Nat :=
  l.foldl (fun acc c => 10 * acc + (c.toNat - 48)) 0

/-- Read an optional leading sign; returns (isNegative, rest). -/
def readSign : List Char → (Bool × List Char)
  | '-' :: rest => (true, rest)
  | '+' :: rest => (false, rest)
  | l => (false, l)

def applySign (neg : Bool) (q : ℚ) : ℚ := if neg then -q else q

/-- Value of integer digits ip and fraction digits fp. -/
def mantissa (ip fp : List Char) : ℚ :=
  if fp.isEmpty then ((digitsToNat ip : ℕ) : ℚ)
  else ((digitsToNat (ip ++ fp) : ℕ) : ℚ) / (10 : ℚ) ^ fp.length

/-- Read the part after the exponent character and scale the given value. -/
def readExponent (base : ℚ) (l : List Char) : Option ℚ :=
  let sr := readSign l
  let dr := sr.2.span Char.isDigit
  if dr.1.isEmpty || !dr.2.isEmpty then none
  else some (if sr.1 then base / (10 : ℚ) ^ digitsToNat dr.1
             else base * (10 : ℚ) ^ digitsToNat dr.1)

/-- Python numeric parsing as used by float(...) and by
pd.to_numeric(errors="coerce") on text: optional surrounding whitespace,
optional sign, decimal digits with optional fraction and optional exponent;
anything else fails.  The spellings nan/inf and digit underscores are outside
the model. -/
def parseFloat (s : String) : Option ℚ :=
  let l0 := trimChars s.data
  let sr := readSign l0
  let ir := sr.2.span Char.isDigit
  match ir.2 with
  | [] => if ir.1.isEmpty then none else some (applySign sr.1 (mantissa ir.1 []))
  | '.' :: l3 =>
    let fr := l3.span Char.isDigit
    if ir.1.isEmpty && fr.1.isEmpty then none
    else
      match fr.2 with
      | [] => some (applySign sr.1 (mantissa ir.1 fr.1))
      | 'e' :: l5 => (readExponent (mantissa ir.1 fr.1) l5).map (applySign sr.1)
      | 'E' :: l5 => (readExponent (mantissa ir.1 fr.1) l5).map (applySign sr.1)
      | _ => none
  | 'e' :: l5 =>
    if ir.1.isEmpty then none else (readExponent (mantissa ir.1 []) l5).map (applySign sr.1)
  | 'E' :: l5 =>
    if ir.1.isEmpty then none else (readExponent (mantissa ir.1 []) l5).map (applySign sr.1)
  | _ => none

/-- One row of the canonical record table: the fifteen canonical cells in
canonical order, the derived CodeDate_num column, and the derived
IsLatestPerPV column. -/
structure Rec where
  fields : List Cell
  codeDateNum : Option ℚ
  isLatestPerPV : Bool
deriving DecidableEq, Repr

/-- Value of a canonical field of a record. -/
def Rec.get (r : Rec) (f : Field) : Cell := r.fields.getD f.index Cell.naMissing

/-- Grouping/sorting key taken from the PVNumber column: the code points of the
text value, or none for a missing value (pandas groups all missing PVNumber
values together and sorts them last). -/
def pvKey (r : Rec) : Option (List Nat) :=
  match r.get Field.PVNumber with
  | Cell.text s => some (s.data.map Char.toNat)
  | _ => none

/-- Order on an optional sort key that places missing values last
(na_position="last"). -/
def optNaLastLe (le : α → α → Bool) : Option α → Option α → Bool
  | _, none => true
  | none, some _ => false
  | some a, some b => le a b

/-- CodeDate_num key order for ascending=False: larger dates first, missing
dates last. -/
def descQLe (a b : Option ℚ) : Bool := optNaLastLe (fun x y => decide (y ≤ x)) a b

/-- PVNumber key order for ascending=True with missing keys last. -/
def pvLe (a b : Option (List Nat)) : Bool := optNaLastLe natListLe a b

/-- Lexicographic comparison used by
sort_values(["PVNumber","CodeDate_num"], ascending=[True,False]). -/
def recLe (a b : Rec) : Bool :=
  if pvKey a = pvKey b then descQLe a.codeDateNum b.codeDateNum
  else pvLe (pvKey a) (pvKey b)

/-- The sort relation as a proposition. -/
def sortRel : Rec → Rec → Prop := fun a b => recLe a b = true

instance : DecidableRel sortRel := fun a b => inferInstanceAs (Decidable (recLe a b = true))

/-- Pandas multi-key sort_values is a stable lexicographic sort (np.lexsort);
a stable sort by a total preorder is unique, so it is modelled by insertion
sort with the same comparison. -/
def pandasSort (l : List Rec) : List Rec := List.insertionSort sortRel l

def setLatest (r : Rec) (b : Bool) : Rec := { r with isLatestPerPV := b }

/-- tmp["IsLatestPerPV"] = ~tmp.duplicated(subset=["PVNumber"], keep="first"):
a record is flagged iff no record before it (in the given order) has the same
PVNumber key. -/
def markFirstAux (seen : List (Option (List Nat))) : List Rec → List Rec
  | [] => []
  | r :: rest =>
    setLatest r (!(decide (pvKey r ∈ seen))) :: markFirstAux (pvKey r :: seen) rest

/-- _latest_per_pv_flag: sort the table by (PVNumber asc, CodeDate_num desc),
assign IsLatestPerPV = not duplicated on PVNumber, and return the sorted
frame. -/
def latestPerPvFlag (l : List Rec) : List Rec := markFirstAux [] (pandasSort l)

/-- drop_duplicates(subset=["PVNumber"], keep="first"): keep the first record
of each PVNumber key, in order. -/
def dropDupPvAux (seen : List (Option (List Nat))) : List Rec → List Rec
  | [] => []
  | r :: rest =>
    if pvKey r ∈ seen then dropDupPvAux seen rest
    else r :: dropDupPvAux (pvKey r :: seen) rest

def dropDupPv (l : List Rec) : List Rec := dropDupPvAux [] l

/-- The composite query value assembled by the UI: global term, basic
multiselect filters, advanced (operator, operand) filters, date-range bound
texts, and the keep-latest toggle. -/
structure Query where
  globalTerm : String
  basicFilters : List (Field × List String)
  advFilters : List (Field × String × String)
  minStr : String
  maxStr : String
  keepLatestOnly : Bool
deriving DecidableEq, Repr

/-- Global-search mask for one record: the stripped, lowered term is empty, or
it regex-matches the lowered rendering of some canonical column. -/
def globalOk (q : Query) (r : Rec) : Bool :=
  let g := lowerStr (trimStr q.globalTerm)
  if g = "" then true
  else Field.all.any (fun f => reSearch g (lowerStr (r.get f).render))

/-- One basic multiselect filter: no constraint when nothing is selected,
otherwise exact (case-sensitive) membership of the rendered value. -/
def basicOne (r : Rec) (col : Field) (sel : List String) : Bool :=
  if sel = [] then true else decide ((r.get col).render ∈ sel)

def basicOk (q : Query) (r : Rec) : Bool :=
  q.basicFilters.all (fun p => basicOne r p.1 p.2)

/-- val.split(";") on character lists. -/
def splitSemi : List Char → List (List Char)
  | [] => [[]]
  | c :: rest =>
    if c = ';' then [] :: splitSemi rest
    else
      match splitSemi rest with
      | [] => [[c]]
      | x :: xs => (c :: x) :: xs

/-- The "in list" operand set: split on ";", strip each entry, drop empties. -/
def splitList (val : String) : List String :=
  ((splitSemi val.data).map (fun cs => String.mk (trimChars cs))).filter
    (fun s => decide (s ≠ ""))

/-- One advanced filter: contains is a case-insensitive regex search, equals a
case-insensitive exact comparison, in list an exact (case-sensitive)
membership in the split operand; any other operator imposes no constraint. -/
def advOne (r : Rec) (col : Field) (mode val : String) : Bool :=
  let sv := (r.get col).render
  if mode = "contains" then reSearch (lowerStr val) (lowerStr sv)
  else if mode = "equals" then decide (lowerStr sv = lowerStr val)
  else if mode = "in list" then decide (sv ∈ splitList val)
  else true

def advOk (q : Query) (r : Rec) : Bool :=
  q.advFilters.all (fun t => advOne r t.1 t.2.1 t.2.2)

/-- Date-range mask: inactive when either bound text is empty; if both bounds
parse, the record's CodeDate_num must be present and lie between them; if
either bound fails to parse, the constraint is dropped (the except branch). -/
def dateOk (q : Query) (r : Rec) : Bool :=
  if q.minStr = "" ∨ q.maxStr = "" then true
  else
    match parseFloat q.minStr, parseFloat q.maxStr with
    | some lo, some hi =>
      match r.codeDateNum with
      | some v => decide (lo ≤ v) && decide (v ≤ hi)
      | none => false
    | _, _ => true

/-- The conjunctive mask over the four filter categories. -/
def recordMask (q : Query) (r : Rec) : Bool :=
  globalOk q r && basicOk q r && advOk q r && dateOk q r

/-- The query engine: filter by the conjunctive mask; if keep-latest is set,
sort the filtered frame by (PVNumber asc, CodeDate_num desc) and keep the
first record of each PVNumber. -/
def evaluate (base : List Rec) (q : Query) : List Rec :=
  let filtered := base.filter (recordMask q)
  if q.keepLatestOnly then dropDupPv (pandasSort filtered) else filtered

/-- An uploaded table: named column headers and rows of cells aligned with the
headers by position. -/
structure DF where
  headers : List String
  rows : List (List Cell)
deriving DecidableEq, Repr

/-- _strip_columns: strip whitespace from every header. -/
def stripColumns (df : DF) : DF := { df with headers := df.headers.map trimStr }

/-- HEADER_ALIASES from the source: each regex is an anchored alternation of
literal spellings, so matching a lowered header against it is membership in
the list of alternatives (with the escaped parentheses unescaped). -/
def HEADER_ALIASES : List (String × List String) :=
  [("PVNumber", ["pv number", "pv_number", "pv no", "pvno", "pv num", "pv id"]),
   ("PVStatus", ["pv status", "status", "pv details", "pv_status"]),
   ("Description", ["description", "desc", "product description"]),
   ("DocumentType", ["document type", "doctype", "doc type", "doc_type"]),
   ("NoteForMarketing",
    ["note for marketing", "marketing note", "notes marketing", "note_marketing"]),
   ("CaseTypeDescriptor", ["case type descriptor", "case type", "case descriptor"]),
   ("AirFillDescriptor",
    ["air fill descriptor", "airfill descriptor", "air fill", "air_fill"]),
   ("CodeDate", ["code date", "codedate", "code_date", "date code", "mfg date"]),
   ("SalesClass", ["sales class", "sales_class", "class"]),
   ("Size", ["size", "pack size", "net weight", "weight"]),
   ("Shape", ["shape", "format"]),
   ("CasesPerLayer(TI)",
    ["cases per layer", "cases/layer", "ti", "cases_per_layer", "cases per layer (ti)"]),
   ("HI(Layers/Pallet)", ["hi", "layers per pallet", "layers/pallet", "layers_per_pallet"]),
   ("TotalNumberOfCasesPerPallet",
    ["total cases per pallet", "total number of cases per pallet", "total cases/pallet"]),
   ("BagsOrTraysPerLayer",
    ["bags per layer", "trays per layer", "bags_or_trays_per_layer", "bags/trays per layer"])]

/-- Python dict assignment d[k] = v on an association list: update in place if
the key exists, else append. -/
def insertOrUpdate : List (String × String) → String → String → List (String × String)
  | [], k, v => [(k, v)]
  | p :: rest, k, v => if p.1 = k then (k, v) :: rest else p :: insertOrUpdate rest k v

/-- lowered = {c.lower(): c for c in df.columns}: association list in first
insertion order, later duplicates overwriting the stored original. -/
def loweredPairs (headers : List String) : List (String × String) :=
  headers.foldl (fun acc c => insertOrUpdate acc (lowerStr c) c) []

/-- The rename_map built by _apply_header_aliases: for each canonical name not
already a column, the first lowered header matching its alias alternation is
mapped to the canonical name. -/
def buildRenameMap (headers : List String) : List (String × String) :=
  HEADER_ALIASES.foldl
    (fun rm ca =>
      if ca.1 ∈ headers then rm
      else
        match (loweredPairs headers).find? (fun p => decide (p.1 ∈ ca.2)) with
        | some p => insertOrUpdate rm p.2 ca.1
        | none => rm)
    []

def renameHeader (rm : List (String × String)) (h : String) : String :=
  match rm.find? (fun p => decide (p.1 = h)) with
  | some p => p.2
  | none => h

/-- _apply_header_aliases: df.rename(columns=rename_map). -/
def applyHeaderAliases (df : DF) : DF :=
  { df with headers := df.headers.map (renameHeader (buildRenameMap df.headers)) }

/-- One step of the df[col] = pd.NA loop of _ensure_required: append the
column, filled with pandas NA, unless it is already present. -/
def addColStep (d : DF) (col : String) : DF :=
  if col ∈ d.headers then d
  else { headers := d.headers ++ [col],
         rows := d.rows.map (fun row => row ++ [Cell.naMissing]) }

/-- The df[col] = pd.NA loop of _ensure_required: append each canonical column
not yet present, filled with pandas NA. -/
def addMissingCols (df : DF) : DF := REQUIRED_COLUMNS.foldl addColStep df

/-- All positions of a label in a header list, in order. -/
def positions : List String → String → List Nat
  | [], _ => []
  | h :: t, c => if h = c then 0 :: (positions t c).map (· + 1) else (positions t c).map (· + 1)

/-- Column positions selected by df[REQUIRED_COLUMNS]: for each requested
label, every column bearing it, in label order (pandas returns all
occurrences of a duplicated label). -/
def selectIdxs (cols hs : List String) : List Nat :=
  match cols with
  | [] => []
  | c :: t => positions hs c ++ selectIdxs t hs

/-- df[REQUIRED_COLUMNS].copy() after backfilling: project to the selected
column positions. -/
def ensureRequired (df : DF) : DF :=
  let d := addMissingCols df
  let idxs := selectIdxs REQUIRED_COLUMNS d.headers
  { headers := idxs.map (fun j => d.headers.getD j ("")),
    rows := d.rows.map (fun row => idxs.map (fun j => row.getD j Cell.naMissing)) }

/-- The Schema Normalizer: strip headers, apply aliases, backfill and project. -/
def normalize (df : DF) : DF := ensureRequired (applyHeaderAliases (stripColumns df))

/-- View the normalized rows as records (derived columns not yet computed). -/
def toRecs (df : DF) : List Rec :=
  df.rows.map (fun row => { fields := row, codeDateNum := none, isLatestPerPV := false })

/-- pd.to_numeric(value, errors="coerce") on one cell: parse text, missing
stays missing, never an error and never a default of zero. -/
def toNumericCell : Cell → Option ℚ
  | Cell.text s => parseFloat s
  | _ => none

/-- _parse_code_date_numeric: derive CodeDate_num from the CodeDate column. -/
def parseCodeDateNumeric (l : List Rec) : List Rec :=
  l.map (fun r => { r with codeDateNum := toNumericCell (r.get Field.CodeDate) })

/-- The full upload pipeline after reading the sheet: normalize, derive
CodeDate_num, sort and flag the latest record per PVNumber. -/
def recordTable (df : DF) : List Rec :=
  latestPerPvFlag (parseCodeDateNumeric (toRecs (normalize df)))

/-- Projection of a record to the data the sort comparison and the masks can
see change under reflagging: the canonical cells and the derived date. -/
def recCore (r : Rec) : List Cell × Option ℚ := (r.fields, r.codeDateNum)

/-- Modelled from the spec (claim C1): reduce the masked result to exactly the
records whose IsLatestForKey flag - computed over the full table - is true. -/
def claimedKeepLatest (base : List Rec) (q : Query) : List Rec :=
  (base.filter (recordMask q)).filter (fun r => r.isLatestPerPV)

/-- Modelled from the spec (claims C1 and C2): the first record of a group
attaining the maximum CodeDateNumeric, a missing date being strictly below
any present date; in an all-missing group, the first record. -/
def specBest : List Rec → Option Rec
  | [] => none
  | r :: rest =>
    match specBest rest with
    | none => some r
    | some b => if descQLe r.codeDateNum b.codeDateNum then some r else some b

/-- Date comparison of the spec: a ≤ b with a missing date below everything. -/
def dproperLe (a b : Option ℚ) : Prop := descQLe b a = true

/-- Record update used to state rendering consistency: replace one canonical
cell. -/
def setFieldCell (r : Rec) (col : Field) (c : Cell) : Rec :=
  { r with fields := r.fields.set col.index c }

/-- A query consisting of a single basic multiselect filter. -/
def basicOnlyQuery (col : Field) (sel : List String) : Query :=
  { globalTerm := "", basicFilters := [(col, sel)], advFilters := [],
    minStr := "", maxStr := "", keepLatestOnly := false }

/-- A query consisting of a single advanced filter. -/
def advOnlyQuery (col : Field) (mode val : String) : Query :=
  { globalTerm := "", basicFilters := [], advFilters := [(col, mode, val)],
    minStr := "", maxStr := "", keepLatestOnly := false }

/-- A query consisting of a global term only. -/
def globalOnlyQuery (g : String) : Query :=
  { globalTerm := g, basicFilters := [], advFilters := [],
    minStr := "", maxStr := "", keepLatestOnly := false }

/-- The head of a list, flagged as latest, as a sublist. -/
def flagHead : List Rec → List Rec
  | [] => []
  | r :: _ => [setLatest r true]

/-- The head of a list as a sublist. -/
def keepHead : List Rec → List Rec
  | [] => []
  | r :: _ => [r]

/-! ### Concrete tables and queries used to instantiate the theorems -/

/-- A record with no cells at all (every canonical lookup yields pandas NA). -/
def sampleRec : Rec := { fields := [], codeDateNum := none, isLatestPerPV := false }

/-- Upload with two P1 records, a 2024 one and a 2023 one. -/
def twoRowDF : DF :=
  { headers := ["PVNumber", "CodeDate", "Description"],
    rows := [[Cell.text ("P1"), Cell.text ("20240101"), Cell.text ("B")],
             [Cell.text ("P1"), Cell.text ("20230101"), Cell.text ("A")]] }

/-- Global search for the older date, keeping only the latest per PVNumber. -/
def keepLatestGlobalQuery : Query :=
  { globalTerm := "20230101", basicFilters := [], advFilters := [],
    minStr := "", maxStr := "", keepLatestOnly := true }

/-- Upload whose Description column is present but blank (a float NaN cell). -/
def blankDescDF : DF :=
  { headers := ["PVNumber", "Description"],
    rows := [[Cell.text ("P1"), Cell.nanMissing]] }

/-- Upload with a Description that a dot pattern matches non-literally. -/
def abcDF : DF :=
  { headers := ["PVNumber", "Description"],
    rows := [[Cell.text ("P1"), Cell.text ("abc")]] }

/-- Upload with two headers that collide after whitespace stripping. -/
def dupHeaderDF : DF :=
  { headers := ["PVNumber", "PVNumber "],
    rows := [[Cell.text ("A"), Cell.text ("B")]] }

/-- Upload exercising alias matching, extra-column dropping and backfill. -/
def aliasDF : DF :=
  { headers := ["PV No", "Code Date", "Random Column"],
    rows := [[Cell.text ("P1"), Cell.text ("20240101"), Cell.text ("x")],
             [Cell.text ("P1"), Cell.text ("20230101"), Cell.text ("y")]] }

/-- An active numeric date range. -/
def dateQuery : Query :=
  { globalTerm := "", basicFilters := [], advFilters := [],
    minStr := "20230101", maxStr := "20230601", keepLatestOnly := false }

/-- A record carrying only a derived date. -/
def dateRec : Rec :=
  { fields := [], codeDateNum := some (((20230415 : ℕ) : ℚ)), isLatestPerPV := false }

/-- The all-empty query (one basic filter key present with nothing selected,
as the UI always materializes the basic-filter keys). -/
def emptyQuery : Query :=
  { globalTerm := "", basicFilters := [(Field.Shape, [])], advFilters := [],
    minStr := "", maxStr := "", keepLatestOnly := false }

/-- The record that the pipeline derives from the 2024 row of twoRowDF. -/
def c8sample : Rec :=
  { fields := [Cell.text ("P1"), Cell.naMissing, Cell.text ("B"), Cell.naMissing,
               Cell.naMissing, Cell.naMissing, Cell.naMissing, Cell.text ("20240101"),
               Cell.naMissing, Cell.naMissing, Cell.naMissing, Cell.naMissing,
               Cell.naMissing, Cell.naMissing, Cell.naMissing],
    codeDateNum := some (((20240101 : ℕ) : ℚ)),
    isLatestPerPV := true }

/-- The PVNumber key of the text "P1". -/
def pvKeyP1 : Option (List Nat) := some ((("P1").data).map Char.toNat)

/-! ### Order lemmas for the sort comparison -/

theorem natListLe_total : ∀ x y : List Nat, natListLe x y = true ∨ natListLe y x = true := by
  intro x
  induction x with
  | nil => intro y; left; rfl
  | cons a xs ih =>
    intro y
    cases y with
    | nil => right; rfl
    | cons b ys =>
      by_cases hab : a = b
      · rcases ih ys with h | h
        · left; simp only [natListLe, if_pos hab]; exact h
        · right; simp only [natListLe, if_pos hab.symm]; exact h
      · rcases Nat.lt_or_gt_of_ne hab with h | h
        · left; simp only [natListLe, if_neg hab]; exact decide_eq_true h
        · right
          have hba : ¬ b = a := fun e => hab e.symm
          simp only [natListLe, if_neg hba]; exact decide_eq_true h

theorem natListLe_trans :
    ∀ x y z : List Nat, natListLe x y = true → natListLe y z = true → natListLe x z = true := by
  intro x
  induction x with
  | nil => intro y z _ _; rfl
  | cons a xs ih =>
    intro y z hxy hyz
    cases y with
    | nil => simp [natListLe] at hxy
    | cons b ys =>
      cases z with
      | nil => simp [natListLe] at hyz
      | cons c zs =>
        by_cases hab : a = b <;> by_cases hbc : b = c
        · have hac : a = c := hab.trans hbc
          simp only [natListLe, if_pos hab] at hxy
          simp only [natListLe, if_pos hbc] at hyz
          simp only [natListLe, if_pos hac]
          exact ih ys zs hxy hyz
        · simp only [natListLe, if_neg hbc] at hyz
          have h2 : b < c := of_decide_eq_true hyz
          have hac : ¬ a = c := by omega
          simp only [natListLe, if_neg hac]
          exact decide_eq_true (by omega)
        · simp only [natListLe, if_neg hab] at hxy
          have h1 : a < b := of_decide_eq_true hxy
          have hac : ¬ a = c := by omega
          simp only [natListLe, if_neg hac]
          exact decide_eq_true (by omega)
        · simp only [natListLe, if_neg hab] at hxy
          simp only [natListLe, if_neg hbc] at hyz
          have h1 : a < b := of_decide_eq_true hxy
          have h2 : b < c := of_decide_eq_true hyz
          have hac : ¬ a = c := by omega
          simp only [natListLe, if_neg hac]
          exact decide_eq_true (by omega)

theorem natListLe_antisymm :
    ∀ x y : List Nat, natListLe x y = true → natListLe y x = true → x = y := by
  intro x
  induction x with
  | nil =>
    intro y _ hyx
    cases y with
    | nil => rfl
    | cons b ys => simp [natListLe] at hyx
  | cons a xs ih =>
    intro y hxy hyx
    cases y with
    | nil => simp [natListLe] at hxy
    | cons b ys =>
      by_cases hab : a = b
      · simp only [natListLe, if_pos hab] at hxy
        simp only [natListLe, if_pos hab.symm] at hyx
        rw [hab, ih ys hxy hyx]
      · have hba : ¬ b = a := fun e => hab e.symm
        simp only [natListLe, if_neg hab] at hxy
        simp only [natListLe, if_neg hba] at hyx
        have h1 : a < b := of_decide_eq_true hxy
        have h2 : b < a := of_decide_eq_true hyx
        omega

theorem pvLe_total : ∀ a b : Option (List Nat), pvLe a b = true ∨ pvLe b a = true := by
  intro a b
  cases a with
  | none =>
    cases b with
    | none => left; rfl
    | some y => right; rfl
  | some x =>
    cases b with
    | none => left; rfl
    | some y => exact natListLe_total x y

theorem pvLe_trans :
    ∀ a b c : Option (List Nat), pvLe a b = true → pvLe b c = true → pvLe a c = true := by
  intro a b c hab hbc
  cases a <;> cases b <;> cases c <;>
    first
      | rfl
      | (exfalso; simp [pvLe, optNaLastLe] at hab; done)
      | (exfalso; simp [pvLe, optNaLastLe] at hbc; done)
      | exact natListLe_trans _ _ _ hab hbc

theorem pvLe_antisymm :
    ∀ a b : Option (List Nat), pvLe a b = true → pvLe b a = true → a = b := by
  intro a b hab hba
  cases a <;> cases b <;>
    first
      | rfl
      | (exfalso; simp [pvLe, optNaLastLe] at hab; done)
      | (exfalso; simp [pvLe, optNaLastLe] at hba; done)
      | exact congrArg some (natListLe_antisymm _ _ hab hba)

theorem descQLe_refl : ∀ a : Option ℚ, descQLe a a = true := by
  intro a
  cases a with
  | none => rfl
  | some x => exact decide_eq_true (le_refl x)

theorem descQLe_total : ∀ a b : Option ℚ, descQLe a b = true ∨ descQLe b a = true := by
  intro a b
  cases a with
  | none =>
    cases b with
    | none => left; rfl
    | some y => right; rfl
  | some x =>
    cases b with
    | none => left; rfl
    | some y =>
      rcases le_total y x with h | h
      · left; exact decide_eq_true h
      · right; exact decide_eq_true h

theorem descQLe_trans :
    ∀ a b c : Option ℚ, descQLe a b = true → descQLe b c = true → descQLe a c = true := by
  intro a b c hab hbc
  cases a <;> cases b <;> cases c <;>
    first
      | rfl
      | (exfalso; simp [descQLe, optNaLastLe] at hab; done)
      | (exfalso; simp [descQLe, optNaLastLe] at hbc; done)
      | exact decide_eq_true (le_trans (of_decide_eq_true hbc) (of_decide_eq_true hab))

theorem recLe_total : ∀ a b : Rec, recLe a b = true ∨ recLe b a = true := by
  intro a b
  by_cases h : pvKey a = pvKey b
  · simp only [recLe, if_pos h, if_pos h.symm]
    exact descQLe_total _ _
  · have h2 : ¬ pvKey b = pvKey a := fun e => h e.symm
    simp only [recLe, if_neg h, if_neg h2]
    exact pvLe_total _ _

theorem recLe_trans :
    ∀ a b c : Rec, recLe a b = true → recLe b c = true → recLe a c = true := by
  intro a b c hab hbc
  by_cases h1 : pvKey a = pvKey b <;> by_cases h2 : pvKey b = pvKey c
  · have h3 : pvKey a = pvKey c := h1.trans h2
    simp only [recLe, if_pos h1] at hab
    simp only [recLe, if_pos h2] at hbc
    simp only [recLe, if_pos h3]
    exact descQLe_trans _ _ _ hab hbc
  · have h3 : ¬ pvKey a = pvKey c := fun e => h2 (h1.symm.trans e)
    simp only [recLe, if_neg h2] at hbc
    simp only [recLe, if_neg h3]
    rw [h1]
    exact hbc
  · have h3 : ¬ pvKey a = pvKey c := fun e => h1 (e.trans h2.symm)
    simp only [recLe, if_neg h1] at hab
    simp only [recLe, if_neg h3]
    rw [← h2]
    exact hab
  · simp only [recLe, if_neg h1] at hab
    simp only [recLe, if_neg h2] at hbc
    by_cases h3 : pvKey a = pvKey c
    · exfalso
      rw [h3] at hab
      exact h2 (pvLe_antisymm _ _ hbc hab)
    · simp only [recLe, if_neg h3]
      exact pvLe_trans _ _ _ hab hbc

theorem sortRel_total : ∀ a b : Rec, sortRel a b ∨ sortRel b a := recLe_total

theorem sortRel_trans : ∀ a b c : Rec, sortRel a b → sortRel b c → sortRel a c := recLe_trans

/-! ### Stable sort lemmas -/

theorem pandasSort_sorted (l : List Rec) : List.Sorted sortRel (pandasSort l) := by
  haveI : IsTotal Rec sortRel := ⟨sortRel_total⟩
  haveI : IsTrans Rec sortRel := ⟨sortRel_trans⟩
  exact List.sorted_insertionSort sortRel l

theorem pandasSort_perm (l : List Rec) : List.Perm (pandasSort l) l :=
  List.perm_insertionSort sortRel l

theorem pandasSort_cons (a : Rec) (l : List Rec) :
    pandasSort (a :: l) = List.orderedInsert sortRel a (pandasSort l) := rfl

theorem pandasSort_of_sorted {l : List Rec} (h : List.Sorted sortRel l) :
    pandasSort l = l :=
  List.Sorted.insertionSort_eq h

theorem orderedInsert_of_forall {r : Rec} {m : List Rec} (h : ∀ x ∈ m, sortRel r x) :
    List.orderedInsert sortRel r m = r :: m := by
  cases m with
  | nil => rfl
  | cons b m' =>
    have hb : sortRel r b := h b (List.mem_cons_self b m')
    simp only [List.orderedInsert, if_pos hb]

theorem filter_orderedInsert_pos {p : Rec → Bool} {r : Rec} (hp : p r = true) :
    ∀ {m : List Rec}, List.Sorted sortRel m →
      (List.orderedInsert sortRel r m).filter p =
        List.orderedInsert sortRel r (m.filter p) := by
  intro m
  induction m with
  | nil =>
    intro _
    simp [List.orderedInsert, hp]
  | cons b m' ih =>
    intro hs
    rw [List.sorted_cons] at hs
    by_cases hrb : sortRel r b
    · have e1 : List.orderedInsert sortRel r (b :: m') = r :: b :: m' := by
        simp only [List.orderedInsert, if_pos hrb]
      cases hpb : p b with
      | true =>
        have e2 : (b :: m').filter p = b :: m'.filter p := List.filter_cons_of_pos hpb
        have e3 : List.orderedInsert sortRel r (b :: m'.filter p) = r :: b :: m'.filter p := by
          simp only [List.orderedInsert, if_pos hrb]
        rw [e1, e2, e3, List.filter_cons_of_pos hp, e2]
      | false =>
        have hnb : ¬ p b := by simp [hpb]
        have e2 : (b :: m').filter p = m'.filter p := List.filter_cons_of_neg hnb
        have e4 : List.orderedInsert sortRel r (m'.filter p) = r :: m'.filter p := by
          apply orderedInsert_of_forall
          intro x hx
          exact sortRel_trans r b x hrb (hs.1 x (List.mem_of_mem_filter hx))
        rw [e1, e2, e4, List.filter_cons_of_pos hp, e2]
    · have e1 : List.orderedInsert sortRel r (b :: m') =
          b :: List.orderedInsert sortRel r m' := by
        simp only [List.orderedInsert, if_neg hrb]
      cases hpb : p b with
      | true =>
        have e2 : (b :: m').filter p = b :: m'.filter p := List.filter_cons_of_pos hpb
        have e3 : List.orderedInsert sortRel r (b :: m'.filter p) =
            b :: List.orderedInsert sortRel r (m'.filter p) := by
          simp only [List.orderedInsert, if_neg hrb]
        rw [e1, e2, e3, List.filter_cons_of_pos hpb, ih hs.2]
      | false =>
        have hnb : ¬ p b := by simp [hpb]
        have e2 : (b :: m').filter p = m'.filter p := List.filter_cons_of_neg hnb
        rw [e1, e2, List.filter_cons_of_neg hnb, ih hs.2]

theorem filter_orderedInsert_neg {p : Rec → Bool} {r : Rec} (hp : p r = false) :
    ∀ m : List Rec,
      (List.orderedInsert sortRel r m).filter p = m.filter p := by
  intro m
  induction m with
  | nil =>
    simp [List.orderedInsert, hp]
  | cons b m' ih =>
    have hnr : ¬ p r := by simp [hp]
    by_cases hrb : sortRel r b
    · have e1 : List.orderedInsert sortRel r (b :: m') = r :: b :: m' := by
        simp only [List.orderedInsert, if_pos hrb]
      rw [e1, List.filter_cons_of_neg hnr]
    · have e1 : List.orderedInsert sortRel r (b :: m') =
          b :: List.orderedInsert sortRel r m' := by
        simp only [List.orderedInsert, if_neg hrb]
      cases hpb : p b with
      | true =>
        rw [e1, List.filter_cons_of_pos hpb, List.filter_cons_of_pos hpb, ih]
      | false =>
        have hnb : ¬ p b := by simp [hpb]
        rw [e1, List.filter_cons_of_neg hnb, List.filter_cons_of_neg hnb, ih]

theorem filter_pandasSort (p : Rec → Bool) :
    ∀ l : List Rec, (pandasSort l).filter p = pandasSort (l.filter p) := by
  intro l
  induction l with
  | nil => rfl
  | cons a l' ih =>
    rw [pandasSort_cons]
    cases hpa : p a with
    | true =>
      rw [filter_orderedInsert_pos hpa (pandasSort_sorted l'), ih,
        List.filter_cons_of_pos hpa, pandasSort_cons]
    | false =>
      have hna : ¬ p a := by simp [hpa]
      rw [filter_orderedInsert_neg hpa, ih, List.filter_cons_of_neg hna]

/-! ### The spec-side best record of a group -/

theorem specBest_isSome (r : Rec) (rest : List Rec) :
    ∃ b, specBest (r :: rest) = some b := by
  cases h : specBest rest with
  | none => exact ⟨r, by simp [specBest, h]⟩
  | some c =>
    by_cases hd : descQLe r.codeDateNum c.codeDateNum = true
    · exact ⟨r, by simp [specBest, h, hd]⟩
    · exact ⟨c, by simp [specBest, h, hd]⟩

theorem specBest_mem : ∀ {g : List Rec} {b : Rec}, specBest g = some b → b ∈ g := by
  intro g
  induction g with
  | nil => intro b h; simp [specBest] at h
  | cons r rest ih =>
    intro b h
    cases hrest : specBest rest with
    | none =>
      simp [specBest, hrest] at h
      rw [← h]
      exact List.mem_cons_self r rest
    | some c =>
      by_cases hd : descQLe r.codeDateNum c.codeDateNum = true
      · simp [specBest, hrest, hd] at h
        rw [← h]
        exact List.mem_cons_self r rest
      · simp [specBest, hrest, hd] at h
        exact List.mem_cons_of_mem r (h ▸ ih hrest)

theorem specBest_max : ∀ {g : List Rec} {b : Rec}, specBest g = some b →
    ∀ x ∈ g, descQLe b.codeDateNum x.codeDateNum = true := by
  intro g
  induction g with
  | nil => intro b h; simp [specBest] at h
  | cons r rest ih =>
    intro b h x hx
    cases hrest : specBest rest with
    | none =>
      have hrest' : rest = [] := by
        cases rest with
        | nil => rfl
        | cons r2 rest2 =>
          obtain ⟨bb, hbb⟩ := specBest_isSome r2 rest2
          rw [hbb] at hrest
          cases hrest
      subst hrest'
      simp [specBest, hrest] at h
      rcases List.mem_cons.mp hx with hw | hw
      · rw [← h, hw]
        exact descQLe_refl _
      · simp at hw
    | some c =>
      by_cases hd : descQLe r.codeDateNum c.codeDateNum = true
      · simp [specBest, hrest, hd] at h
        rcases List.mem_cons.mp hx with hw | hw
        · rw [← h, hw]
          exact descQLe_refl _
        · rw [← h]
          exact descQLe_trans _ _ _ hd (ih hrest x hw)
      · simp [specBest, hrest, hd] at h
        rcases List.mem_cons.mp hx with hw | hw
        · rw [← h, hw]
          rcases descQLe_total r.codeDateNum c.codeDateNum with ht | ht
          · exact absurd ht hd
          · exact ht
        · rw [← h]
          exact ih hrest x hw

theorem head_pandasSort_group : ∀ (g : List Rec) (v : Option (List Nat)),
    (∀ r ∈ g, pvKey r = v) → (pandasSort g).head? = specBest g := by
  intro g
  induction g with
  | nil => intro v _; rfl
  | cons r rest ih =>
    intro v hv
    have hvr : pvKey r = v := hv r (List.mem_cons_self r rest)
    have hvrest : ∀ x ∈ rest, pvKey x = v := fun x hx => hv x (List.mem_cons_of_mem r hx)
    rw [pandasSort_cons]
    cases hsort : pandasSort rest with
    | nil =>
      have hlen := congrArg List.length hsort
      rw [pandasSort, List.length_insertionSort] at hlen
      have hnil : rest = [] := List.length_eq_zero.mp hlen
      subst hnil
      rfl
    | cons b m =>
      have hbmem : b ∈ rest := by
        have hb : b ∈ pandasSort rest := by
          rw [hsort]
          exact List.mem_cons_self b m
        exact (pandasSort_perm rest).subset hb
      have hvb : pvKey b = v := hvrest b hbmem
      have hkey : pvKey r = pvKey b := by rw [hvr, hvb]
      have ihr := ih v hvrest
      rw [hsort] at ihr
      simp only [List.head?_cons] at ihr
      by_cases hd : sortRel r b
      · have e : List.orderedInsert sortRel r (b :: m) = r :: b :: m := by
          simp only [List.orderedInsert, if_pos hd]
        rw [e]
        have hdq : descQLe r.codeDateNum b.codeDateNum = true := by
          have hr : recLe r b = true := hd
          rw [recLe, if_pos hkey] at hr
          exact hr
        simp [specBest, ← ihr, hdq]
      · have e : List.orderedInsert sortRel r (b :: m) =
            b :: List.orderedInsert sortRel r m := by
          simp only [List.orderedInsert, if_neg hd]
        rw [e]
        have hdq : ¬ descQLe r.codeDateNum b.codeDateNum = true := by
          intro hq
          apply hd
          show recLe r b = true
          rw [recLe, if_pos hkey]
          exact hq
        simp [specBest, ← ihr, hdq]

/-! ### Flagging and deduplication by PVNumber key -/

theorem pvKey_setLatest (x : Rec) (bb : Bool) : pvKey (setLatest x bb) = pvKey x := rfl

theorem isLatest_setLatest (x : Rec) (bb : Bool) : (setLatest x bb).isLatestPerPV = bb := rfl

theorem markFirstAux_filter (v : Option (List Nat)) :
    ∀ (s : List Rec) (seen : List (Option (List Nat))),
      (markFirstAux seen s).filter (fun r => decide (pvKey r = v) && r.isLatestPerPV) =
        if v ∈ seen then []
        else flagHead (s.filter (fun r => decide (pvKey r = v))) := by
  intro s
  induction s with
  | nil =>
    intro seen
    simp only [markFirstAux, List.filter_nil]
    split <;> rfl
  | cons r rest ih =>
    intro seen
    by_cases hrv : pvKey r = v
    · by_cases hseen : v ∈ seen
      · simp [markFirstAux, List.filter_cons, pvKey_setLatest, isLatest_setLatest,
          hrv, hseen, ih, flagHead]
      · simp [markFirstAux, List.filter_cons, pvKey_setLatest, isLatest_setLatest,
          hrv, hseen, ih, flagHead]
    · have hvr : ¬ v = pvKey r := fun e => hrv e.symm
      by_cases hseen : v ∈ seen
      · simp [markFirstAux, List.filter_cons, pvKey_setLatest, isLatest_setLatest,
          hrv, hvr, hseen, ih]
      · simp [markFirstAux, List.filter_cons, pvKey_setLatest, isLatest_setLatest,
          hrv, hvr, hseen, ih]

theorem markFirstAux_map_core :
    ∀ (s : List Rec) (seen : List (Option (List Nat))),
      (markFirstAux seen s).map recCore = s.map recCore := by
  intro s
  induction s with
  | nil => intro seen; rfl
  | cons r rest ih =>
    intro seen
    simp only [markFirstAux, List.map_cons, ih]
    rfl

theorem markFirstAux_mem :
    ∀ {s : List Rec} {seen : List (Option (List Nat))} {y : Rec},
      y ∈ markFirstAux seen s → ∃ x ∈ s, ∃ bb, y = setLatest x bb := by
  intro s
  induction s with
  | nil => intro seen y h; simp [markFirstAux] at h
  | cons r rest ih =>
    intro seen y h
    simp only [markFirstAux] at h
    rcases List.mem_cons.mp h with hw | hw
    · exact ⟨r, List.mem_cons_self r rest, _, hw⟩
    · obtain ⟨x, hx, bb, hy⟩ := ih hw
      exact ⟨x, List.mem_cons_of_mem r hx, bb, hy⟩

theorem markFirstAux_pairwise :
    ∀ {s : List Rec} (seen : List (Option (List Nat))),
      List.Pairwise sortRel s → List.Pairwise sortRel (markFirstAux seen s) := by
  intro s
  induction s with
  | nil => intro seen _; exact List.Pairwise.nil
  | cons r rest ih =>
    intro seen hp
    rcases List.pairwise_cons.mp hp with ⟨hr, hrest⟩
    refine List.Pairwise.cons ?_ (ih (pvKey r :: seen) hrest)
    intro y hy
    obtain ⟨x, hx, bb, hyx⟩ := markFirstAux_mem hy
    rw [hyx]
    exact hr x hx

theorem latestPerPvFlag_pairwise (l : List Rec) :
    List.Pairwise sortRel (latestPerPvFlag l) :=
  markFirstAux_pairwise [] (pandasSort_sorted l)

theorem mem_latestPerPvFlag :
    ∀ {l : List Rec} {y : Rec},
      y ∈ latestPerPvFlag l → ∃ x ∈ l, ∃ bb, y = setLatest x bb := by
  intro l y h
  obtain ⟨x, hx, bb, hy⟩ := markFirstAux_mem h
  exact ⟨x, (pandasSort_perm l).subset hx, bb, hy⟩

theorem dropDupPvAux_sublist :
    ∀ (s : List Rec) (seen : List (Option (List Nat))),
      List.Sublist (dropDupPvAux seen s) s := by
  intro s
  induction s with
  | nil => intro seen; exact List.Sublist.refl []
  | cons r rest ih =>
    intro seen
    simp only [dropDupPvAux]
    by_cases h : pvKey r ∈ seen
    · rw [if_pos h]
      exact (ih seen).cons r
    · rw [if_neg h]
      exact (ih (pvKey r :: seen)).cons₂ r

theorem dropDupPvAux_filter (v : Option (List Nat)) :
    ∀ (s : List Rec) (seen : List (Option (List Nat))),
      (dropDupPvAux seen s).filter (fun r => decide (pvKey r = v)) =
        if v ∈ seen then []
        else keepHead (s.filter (fun r => decide (pvKey r = v))) := by
  intro s
  induction s with
  | nil =>
    intro seen
    simp only [dropDupPvAux, List.filter_nil]
    split <;> rfl
  | cons r rest ih =>
    intro seen
    by_cases hrv : pvKey r = v
    · by_cases hseen : v ∈ seen
      · simp [dropDupPvAux, List.filter_cons, hrv, hseen, ih, keepHead]
      · simp [dropDupPvAux, List.filter_cons, hrv, hseen, ih, keepHead]
    · have hvr : ¬ v = pvKey r := fun e => hrv e.symm
      by_cases hseen : v ∈ seen
      · by_cases hmem : pvKey r ∈ seen
        · simp [dropDupPvAux, List.filter_cons, hrv, hvr, hseen, hmem, ih]
        · simp [dropDupPvAux, List.filter_cons, hrv, hvr, hseen, hmem, ih]
      · by_cases hmem : pvKey r ∈ seen
        · simp [dropDupPvAux, List.filter_cons, hrv, hvr, hseen, hmem, ih]
        · simp [dropDupPvAux, List.filter_cons, hrv, hvr, hseen, hmem, ih]

theorem flagHead_of_head {l : List Rec} {b : Rec} (h : l.head? = some b) :
    flagHead l = [setLatest b true] := by
  cases l with
  | nil => cases h
  | cons r t =>
    simp only [List.head?_cons, Option.some.injEq] at h
    rw [flagHead, h]

theorem keepHead_of_head {l : List Rec} {b : Rec} (h : l.head? = some b) :
    keepHead l = [b] := by
  cases l with
  | nil => cases h
  | cons r t =>
    simp only [List.head?_cons, Option.some.injEq] at h
    rw [keepHead, h]

theorem pandasSort_ne_nil {g : List Rec} (h : g ≠ []) : pandasSort g ≠ [] := by
  intro he
  apply h
  have := congrArg List.length he
  rw [pandasSort, List.length_insertionSort] at this
  exact List.length_eq_zero.mp this

theorem filter_group_key (l : List Rec) (v : Option (List Nat)) :
    ∀ r ∈ l.filter (fun r => decide (pvKey r = v)), pvKey r = v := by
  intro r hr
  exact of_decide_eq_true (List.mem_filter.mp hr).2

/-- The latest flag, per group: the flag computed by _latest_per_pv_flag marks,
within each PVNumber group, exactly the first record of the group attaining the
maximum CodeDate_num. -/
theorem latestPerPvFlag_group (l : List Rec) (v : Option (List Nat))
    (hne : l.filter (fun r => decide (pvKey r = v)) ≠ []) :
    ∃ b, specBest (l.filter (fun r => decide (pvKey r = v))) = some b ∧
      (latestPerPvFlag l).filter (fun r => decide (pvKey r = v) && r.isLatestPerPV) =
        [setLatest b true] := by
  have h1 := markFirstAux_filter v (pandasSort l) []
  rw [if_neg (by simp)] at h1
  rw [filter_pandasSort] at h1
  have h2 := head_pandasSort_group (l.filter (fun r => decide (pvKey r = v))) v
    (filter_group_key l v)
  cases hsb : specBest (l.filter (fun r => decide (pvKey r = v))) with
  | none =>
    exfalso
    cases hps : pandasSort (l.filter (fun r => decide (pvKey r = v))) with
    | nil => exact pandasSort_ne_nil hne hps
    | cons x t =>
      rw [hps, hsb] at h2
      simp at h2
  | some b =>
    refine ⟨b, rfl, ?_⟩
    rw [hsb] at h2
    rw [latestPerPvFlag, h1, flagHead_of_head h2]

/-- The keep-latest reduction of the query engine, per group: among the
mask-surviving records of each PVNumber group, the first record attaining the
maximum CodeDate_num is kept (with its stored flag untouched). -/
theorem evaluate_keepLatest_group (base : List Rec) (q : Query) (v : Option (List Nat))
    (hk : q.keepLatestOnly = true) :
    (evaluate base q).filter (fun r => decide (pvKey r = v)) =
      (specBest ((base.filter (recordMask q)).filter
        (fun r => decide (pvKey r = v)))).toList := by
  have he : evaluate base q = dropDupPv (pandasSort (base.filter (recordMask q))) := by
    simp only [evaluate, hk, if_pos]
  rw [he, dropDupPv]
  have h1 := dropDupPvAux_filter v (pandasSort (base.filter (recordMask q))) []
  rw [if_neg (by simp)] at h1
  rw [filter_pandasSort] at h1
  rw [h1]
  have h2 := head_pandasSort_group ((base.filter (recordMask q)).filter
    (fun r => decide (pvKey r = v))) v (filter_group_key _ v)
  cases hsb : specBest ((base.filter (recordMask q)).filter
      (fun r => decide (pvKey r = v))) with
  | none =>
    rw [hsb] at h2
    cases hps : pandasSort ((base.filter (recordMask q)).filter
        (fun r => decide (pvKey r = v))) with
    | nil => rfl
    | cons x t =>
      rw [hps] at h2
      simp at h2
  | some b =>
    rw [hsb] at h2
    rw [keepHead_of_head h2]
    rfl

/-- Order stability of the engine on tables produced by the upload pipeline:
the filtered frame is a subsequence, and with keep-latest the second sort is
the identity because the table is already sorted. -/
theorem evaluate_sublist (l : List Rec) (q : Query) :
    List.Sublist (evaluate (latestPerPvFlag l) q) (latestPerPvFlag l) := by
  cases hk : q.keepLatestOnly with
  | false =>
    simp only [evaluate, hk, if_neg]
    exact List.filter_sublist _
  | true =>
    simp only [evaluate, hk, if_pos]
    have hsorted : List.Pairwise sortRel ((latestPerPvFlag l).filter (recordMask q)) :=
      (latestPerPvFlag_pairwise l).filter _
    rw [pandasSort_of_sorted hsorted]
    exact List.Sublist.trans (dropDupPvAux_sublist _ []) (List.filter_sublist _)

theorem evaluate_keepLatest_no_resort (l : List Rec) (q : Query)
    (hk : q.keepLatestOnly = true) :
    evaluate (latestPerPvFlag l) q =
      dropDupPv ((latestPerPvFlag l).filter (recordMask q)) := by
  simp only [evaluate, hk, if_pos]
  have hsorted : List.Pairwise sortRel ((latestPerPvFlag l).filter (recordMask q)) :=
    (latestPerPvFlag_pairwise l).filter _
  rw [pandasSort_of_sorted hsorted]

/-! ### The regex fragment versus literal substring matching -/

theorem matchHere_eq_startsEq :
    ∀ (p s : List Char), (∀ c ∈ p, isRegexSpecial c = false) →
      matchHere p s = startsEq p s := by
  intro p
  induction p with
  | nil => intro s _; cases s <;> rfl
  | cons c p2 ih =>
    intro s hp
    have hc : isRegexSpecial c = false := hp c (List.mem_cons_self c p2)
    have hcdot : ¬ c = '.' := by
      intro e
      rw [e] at hc
      rw [show isRegexSpecial ('.') = true from by decide] at hc
      cases hc
    cases s with
    | nil => rfl
    | cons a s2 =>
      simp only [matchHere, startsEq, if_neg hcdot]
      rw [ih s2 (fun d hd => hp d (List.mem_cons_of_mem c hd))]

theorem reSearchChars_eq_containsChars (p : List Char)
    (hp : ∀ c ∈ p, isRegexSpecial c = false) :
    ∀ s, reSearchChars p s = containsChars p s := by
  intro s
  induction s with
  | nil =>
    simp only [reSearchChars, containsChars]
    exact matchHere_eq_startsEq p [] hp
  | cons a t ih =>
    simp only [reSearchChars, containsChars]
    rw [matchHere_eq_startsEq p (a :: t) hp, ih]

theorem reSearch_eq_litContains (pat s : String)
    (hp : ∀ c ∈ pat.data, isRegexSpecial c = false) :
    reSearch pat s = litContains pat s :=
  reSearchChars_eq_containsChars pat.data hp s.data

/-! ### Rendering congruence: all operators see a record only through
astype(str) rendering and the derived date -/

theorem list_any_congr {l : List α} {p p2 : α → Bool}
    (h : ∀ a ∈ l, p a = p2 a) : l.any p = l.any p2 := by
  induction l with
  | nil => rfl
  | cons a t ih =>
    simp only [List.any_cons, h a (List.mem_cons_self a t),
      ih (fun x hx => h x (List.mem_cons_of_mem a hx))]

theorem list_all_congr {l : List α} {p p2 : α → Bool}
    (h : ∀ a ∈ l, p a = p2 a) : l.all p = l.all p2 := by
  induction l with
  | nil => rfl
  | cons a t ih =>
    simp only [List.all_cons, h a (List.mem_cons_self a t),
      ih (fun x hx => h x (List.mem_cons_of_mem a hx))]

theorem globalOk_congr (q : Query) {r r2 : Rec}
    (hrender : ∀ f, (r2.get f).render = (r.get f).render) :
    globalOk q r2 = globalOk q r := by
  simp only [globalOk]
  by_cases hg : lowerStr (trimStr q.globalTerm) = ""
  · rw [if_pos hg, if_pos hg]
  · rw [if_neg hg, if_neg hg]
    apply list_any_congr
    intro f _
    rw [hrender f]

theorem basicOk_congr (q : Query) {r r2 : Rec}
    (hrender : ∀ f, (r2.get f).render = (r.get f).render) :
    basicOk q r2 = basicOk q r := by
  simp only [basicOk]
  apply list_all_congr
  intro p _
  simp only [basicOne, hrender p.1]

theorem advOk_congr (q : Query) {r r2 : Rec}
    (hrender : ∀ f, (r2.get f).render = (r.get f).render) :
    advOk q r2 = advOk q r := by
  simp only [advOk]
  apply list_all_congr
  intro t _
  simp only [advOne, hrender t.1]

theorem recordMask_congr (q : Query) {r r2 : Rec}
    (hrender : ∀ f, (r2.get f).render = (r.get f).render)
    (hdate : r2.codeDateNum = r.codeDateNum) :
    recordMask q r2 = recordMask q r := by
  simp only [recordMask, globalOk_congr q hrender, basicOk_congr q hrender,
    advOk_congr q hrender, dateOk, hdate]

theorem Field.index_inj : ∀ f g : Field, f.index = g.index → f = g := by
  intro f g
  cases f <;> cases g <;> first | (intro _; rfl) | (intro h; simp [Field.index] at h)

theorem get_setFieldCell_ne (r : Rec) (col f : Field) (c : Cell) (h : ¬ f = col) :
    (setFieldCell r col c).get f = r.get f := by
  have hidx : col.index ≠ f.index := fun e => h (Field.index_inj f col e.symm)
  simp only [setFieldCell, Rec.get, List.getD_eq_getElem?_getD]
  rw [List.getElem?_set_ne hidx]

theorem render_get_setFieldCell_self (r : Rec) (col : Field) :
    ((setFieldCell r col (Cell.text ((r.get col).render))).get col).render =
      (r.get col).render := by
  by_cases h : col.index < r.fields.length
  · have hget : (setFieldCell r col (Cell.text ((r.get col).render))).get col =
        Cell.text ((r.get col).render) := by
      simp only [setFieldCell, Rec.get, List.getD_eq_getElem?_getD]
      rw [List.getElem?_set_self h]
      rfl
    rw [hget]
    rfl
  · have hle : r.fields.length ≤ col.index := Nat.le_of_not_lt h
    have hid : setFieldCell r col (Cell.text ((r.get col).render)) = r := by
      simp only [setFieldCell, List.set_eq_of_length_le hle]
    rw [hid]

theorem render_setFieldCell (r : Rec) (col : Field) :
    ∀ f, ((setFieldCell r col (Cell.text ((r.get col).render))).get f).render =
      (r.get f).render := by
  intro f
  by_cases h : f = col
  · rw [h]
    exact render_get_setFieldCell_self r col
  · rw [get_setFieldCell_ne r col f _ h]

/-! ### Schema normalizer lemmas -/

theorem addColStep_mem_preserved {d : DF} {x : String} (col : String)
    (h : x ∈ d.headers) : x ∈ (addColStep d col).headers := by
  simp only [addColStep]
  split
  · exact h
  · exact List.mem_append_left _ h

theorem addColStep_mem_self (d : DF) (col : String) :
    col ∈ (addColStep d col).headers := by
  simp only [addColStep]
  split
  · assumption
  · exact List.mem_append_right _ (List.mem_cons_self col [])

theorem addColStep_nodup {d : DF} (col : String) (h : d.headers.Nodup) :
    (addColStep d col).headers.Nodup := by
  simp only [addColStep]
  split
  · exact h
  · rw [List.nodup_append]
    exact ⟨h, List.nodup_cons.mpr (by simp), by simp [List.disjoint_singleton]; assumption⟩

theorem foldl_addColStep_mem_preserved :
    ∀ (cols : List String) (d : DF) (x : String), x ∈ d.headers →
      x ∈ (cols.foldl addColStep d).headers := by
  intro cols
  induction cols with
  | nil => intro d x h; exact h
  | cons c t ih =>
    intro d x h
    exact ih (addColStep d c) x (addColStep_mem_preserved c h)

theorem foldl_addColStep_mem :
    ∀ (cols : List String) (d : DF), ∀ c ∈ cols, c ∈ (cols.foldl addColStep d).headers := by
  intro cols
  induction cols with
  | nil => intro d c hc; cases hc
  | cons c0 t ih =>
    intro d c hc
    rcases List.mem_cons.mp hc with he | he
    · rw [he]
      exact foldl_addColStep_mem_preserved t (addColStep d c0) c0 (addColStep_mem_self d c0)
    · exact ih (addColStep d c0) c he

theorem foldl_addColStep_nodup :
    ∀ (cols : List String) (d : DF), d.headers.Nodup →
      ((cols.foldl addColStep d).headers).Nodup := by
  intro cols
  induction cols with
  | nil => intro d h; exact h
  | cons c t ih =>
    intro d h
    exact ih (addColStep d c) (addColStep_nodup c h)

theorem positions_eq_nil : ∀ {hs : List String} {c : String}, c ∉ hs → positions hs c = [] := by
  intro hs
  induction hs with
  | nil => intro c _; rfl
  | cons h t ih =>
    intro c hc
    have h1 : ¬ h = c := fun e => hc (by rw [e]; exact List.mem_cons_self c t)
    have h2 : c ∉ t := fun e => hc (List.mem_cons_of_mem h e)
    simp only [positions, if_neg h1, ih h2, List.map_nil]

theorem positions_singleton :
    ∀ (hs : List String), hs.Nodup → ∀ c ∈ hs,
      ∃ j, positions hs c = [j] ∧ hs.getD j ("") = c := by
  intro hs
  induction hs with
  | nil => intro _ c hc; cases hc
  | cons h t ih =>
    intro hnd c hc
    rw [List.nodup_cons] at hnd
    by_cases hhc : h = c
    · have hct : c ∉ t := by rw [← hhc]; exact hnd.1
      refine ⟨0, ?_, ?_⟩
      · simp only [positions, if_pos hhc, positions_eq_nil hct, List.map_nil]
      · simp only [List.getD_cons_zero, hhc]
    · rcases List.mem_cons.mp hc with he | he
      · exact absurd he.symm hhc
      · obtain ⟨j, hj1, hj2⟩ := ih hnd.2 c he
        refine ⟨j + 1, ?_, ?_⟩
        · simp only [positions, if_neg hhc, hj1, List.map_cons, List.map_nil]
        · simp only [List.getD_cons_succ, hj2]

theorem selectIdxs_map :
    ∀ (cols : List String) (hs : List String), hs.Nodup → (∀ c ∈ cols, c ∈ hs) →
      (selectIdxs cols hs).map (fun j => hs.getD j ("")) = cols := by
  intro cols hs hnd
  induction cols with
  | nil => intro _; rfl
  | cons c t ih =>
    intro hmem
    obtain ⟨j, hj1, hj2⟩ := positions_singleton hs hnd c (hmem c (List.mem_cons_self c t))
    simp only [selectIdxs, List.map_append, hj1, List.map_cons, List.map_nil, hj2,
      ih (fun x hx => hmem x (List.mem_cons_of_mem c hx))]
    rfl

theorem normalize_headers (df : DF)
    (h : ((applyHeaderAliases (stripColumns df)).headers).Nodup) :
    (normalize df).headers = REQUIRED_COLUMNS := by
  have hnd : ((addMissingCols (applyHeaderAliases (stripColumns df))).headers).Nodup :=
    foldl_addColStep_nodup REQUIRED_COLUMNS _ h
  have hmem : ∀ c ∈ REQUIRED_COLUMNS,
      c ∈ (addMissingCols (applyHeaderAliases (stripColumns df))).headers :=
    foldl_addColStep_mem REQUIRED_COLUMNS _
  simp only [normalize, ensureRequired]
  exact selectIdxs_map REQUIRED_COLUMNS _ hnd hmem

theorem normalize_row_lengths (df : DF)
    (h : ((applyHeaderAliases (stripColumns df)).headers).Nodup) :
    ∀ row ∈ (normalize df).rows, row.length = 15 := by
  have hh := normalize_headers df h
  simp only [normalize, ensureRequired] at hh ⊢
  intro row hrow
  rcases List.mem_map.mp hrow with ⟨row0, _, hmap⟩
  have hlen : (selectIdxs REQUIRED_COLUMNS
      (addMissingCols (applyHeaderAliases (stripColumns df))).headers).length = 15 := by
    have := congrArg List.length hh
    rw [List.length_map] at this
    exact this
  rw [← hmap, List.length_map, hlen]

theorem recordTable_fields (df : DF) :
    ∀ r ∈ recordTable df, ∃ row ∈ (normalize df).rows, r.fields = row := by
  intro r hr
  obtain ⟨x, hx, bb, hrx⟩ := mem_latestPerPvFlag hr
  obtain ⟨y, hy, hxy⟩ := List.mem_map.mp hx
  obtain ⟨row, hrow, hyrow⟩ := List.mem_map.mp hy
  refine ⟨row, hrow, ?_⟩
  subst hrx
  rw [← hxy, ← hyrow]
  rfl

/-! ### Mask computations for single-constraint queries -/

theorem lowerTrimEmpty : lowerStr (trimStr ("")) = "" := rfl

theorem evaluate_singleton (r : Rec) (q : Query) (hk : q.keepLatestOnly = false) :
    evaluate [r] q = if recordMask q r then [r] else [] := by
  simp only [evaluate, hk]
  rw [if_neg (by simp)]
  simp only [List.filter_cons, List.filter_nil]

theorem recordMask_basicOnly (r : Rec) (col : Field) (sel : List String) :
    recordMask (basicOnlyQuery col sel) r = basicOne r col sel := by
  simp [recordMask, globalOk, basicOk, advOk, dateOk, basicOnlyQuery, lowerTrimEmpty]

theorem recordMask_advOnly (r : Rec) (col : Field) (mode val : String) :
    recordMask (advOnlyQuery col mode val) r = advOne r col mode val := by
  simp [recordMask, globalOk, basicOk, advOk, dateOk, advOnlyQuery, lowerTrimEmpty]

theorem advOne_inlist (r : Rec) (col : Field) (val : String) :
    advOne r col ("in list") val = decide ((r.get col).render ∈ splitList val) := by
  simp [advOne]

theorem advOne_equals (r : Rec) (col : Field) (val : String) :
    advOne r col ("equals") val =
      decide (lowerStr ((r.get col).render) = lowerStr val) := by
  simp [advOne]

/-! ### The claims -/

/-- Claim C1, counterexample: the claim predicts that with keepLatestOnly the
result is the mask-surviving records whose IsLatestForKey flag (computed over
the full table) is true; on a table with a 2024 and a 2023 record for P1 and a
mask matching only the 2023 one, that prediction is empty, while the engine
re-runs the sort-and-drop-duplicates reduction on the filtered subset and
returns the 2023 record. -/
theorem C1_counterexample :
    evaluate (recordTable twoRowDF) keepLatestGlobalQuery ≠
        claimedKeepLatest (recordTable twoRowDF) keepLatestGlobalQuery ∧
      claimedKeepLatest (recordTable twoRowDF) keepLatestGlobalQuery = [] ∧
      (evaluate (recordTable twoRowDF) keepLatestGlobalQuery).map
        (fun r => (r.get Field.Description).render) = [("A")] := by
  refine ⟨?_, by decide, by decide⟩
  decide

/-- Claim C1, amended: with keepLatestOnly set, the engine returns, within each
PVNumber group, the first mask-surviving record attaining the maximum
CodeDateNumeric among the survivors - the latest record is recomputed on the
filtered subset, so filtering can change which record is kept for a key. -/
theorem C1_theorem (base : List Rec) (q : Query) (v : Option (List Nat))
    (hk : q.keepLatestOnly = true) :
    (evaluate base q).filter (fun r => decide (pvKey r = v)) =
      (specBest ((base.filter (recordMask q)).filter
        (fun r => decide (pvKey r = v)))).toList :=
  evaluate_keepLatest_group base q v hk

/-- Claim C1, witness instantiating the amended theorem. -/
theorem C1_witness :
    keepLatestGlobalQuery.keepLatestOnly = true ∧
      (evaluate (recordTable twoRowDF) keepLatestGlobalQuery).filter
          (fun r => decide (pvKey r = pvKeyP1)) =
        (specBest (((recordTable twoRowDF).filter (recordMask keepLatestGlobalQuery)).filter
          (fun r => decide (pvKey r = pvKeyP1)))).toList :=
  ⟨rfl, C1_theorem (recordTable twoRowDF) keepLatestGlobalQuery pvKeyP1 rfl⟩

/-- Claim C2: after flagLatest, each nonempty PVNumber group carries exactly
one IsLatestForKey flag, on the first-in-input-order record attaining the
maximum CodeDateNumeric (missing strictly below any present value; an
all-missing group flags its first record). -/
theorem C2_theorem (l : List Rec) (v : Option (List Nat))
    (hne : l.filter (fun r => decide (pvKey r = v)) ≠ []) :
    ∃ b, specBest (l.filter (fun r => decide (pvKey r = v))) = some b ∧
      b ∈ l ∧ pvKey b = v ∧
      (∀ x ∈ l, pvKey x = v → dproperLe x.codeDateNum b.codeDateNum) ∧
      (latestPerPvFlag l).filter (fun r => decide (pvKey r = v) && r.isLatestPerPV) =
        [setLatest b true] := by
  obtain ⟨b, hsb, hflag⟩ := latestPerPvFlag_group l v hne
  refine ⟨b, hsb, ?_, ?_, ?_, hflag⟩
  · exact (List.mem_filter.mp (specBest_mem hsb)).1
  · exact filter_group_key l v b (specBest_mem hsb)
  · intro x hx hxv
    have hxmem : x ∈ l.filter (fun r => decide (pvKey r = v)) :=
      List.mem_filter.mpr ⟨hx, decide_eq_true hxv⟩
    exact specBest_max hsb x hxmem

/-- Claim C2, witness on the two-record P1 table. -/
theorem C2_witness :
    (parseCodeDateNumeric (toRecs (normalize twoRowDF))).filter
        (fun r => decide (pvKey r = pvKeyP1)) ≠ [] ∧
      ∃ b, specBest ((parseCodeDateNumeric (toRecs (normalize twoRowDF))).filter
          (fun r => decide (pvKey r = pvKeyP1))) = some b ∧
        b ∈ parseCodeDateNumeric (toRecs (normalize twoRowDF)) ∧ pvKey b = pvKeyP1 ∧
        (∀ x ∈ parseCodeDateNumeric (toRecs (normalize twoRowDF)), pvKey x = pvKeyP1 →
          dproperLe x.codeDateNum b.codeDateNum) ∧
        (latestPerPvFlag (parseCodeDateNumeric (toRecs (normalize twoRowDF)))).filter
            (fun r => decide (pvKey r = pvKeyP1) && r.isLatestPerPV) =
          [setLatest b true] :=
  ⟨by decide, C2_theorem (parseCodeDateNumeric (toRecs (normalize twoRowDF))) pvKeyP1 (by decide)⟩

/-- Claim C3, counterexample: two uploaded headers that collide after
whitespace trimming ("PVNumber" and "PVNumber ") both become PVNumber, and
df[REQUIRED_COLUMNS] then returns both duplicates, so the normalized table has
sixteen columns rather than the canonical fifteen. -/
theorem C3_counterexample :
    (normalize dupHeaderDF).headers ≠ REQUIRED_COLUMNS ∧
      (normalize dupHeaderDF).headers.length = 16 := by
  refine ⟨?_, by decide⟩
  decide

/-- Claim C3, amended: provided the trimmed headers are pairwise distinct, the
normalized table has exactly the fifteen canonical columns in canonical order,
regardless of input order, casing, extra columns or omissions, every row has
fifteen cells, and every record of the derived record table still carries
fifteen canonical cells. -/
theorem C3_theorem (df : DF)
    (h : ((applyHeaderAliases (stripColumns df)).headers).Nodup) :
    (normalize df).headers = REQUIRED_COLUMNS ∧
      (∀ row ∈ (normalize df).rows, row.length = 15) ∧
      ∀ r ∈ recordTable df, r.fields.length = 15 := by
  refine ⟨normalize_headers df h, normalize_row_lengths df h, ?_⟩
  intro r hr
  obtain ⟨row, hrow, hf⟩ := recordTable_fields df r hr
  rw [hf]
  exact normalize_row_lengths df h row hrow

/-- Claim C3, witness: aliased header, extra column and omitted columns. -/
theorem C3_witness :
    ((applyHeaderAliases (stripColumns aliasDF)).headers).Nodup ∧
      ((normalize aliasDF).headers = REQUIRED_COLUMNS ∧
        (∀ row ∈ (normalize aliasDF).rows, row.length = 15) ∧
        ∀ r ∈ recordTable aliasDF, r.fields.length = 15) :=
  ⟨by decide, C3_theorem aliasDF (by decide)⟩

/-- Claim C4, counterexample: the operand "a.c" is not a literal substring of
"abc", yet the contains filter matches the record, because str.contains
interprets the operand as a regular expression. -/
theorem C4_counterexample :
    evaluate (recordTable abcDF) (advOnlyQuery Field.Description ("contains") ("a.c")) =
        recordTable abcDF ∧
      litContains ("a.c") ("abc") = false := by
  refine ⟨?_, by decide⟩
  decide

/-- Claim C4, amended: the global term and the contains operand are interpreted
as case-insensitive regular-expression searches over the rendered values; an
operand containing no regex metacharacter behaves as a literal case-insensitive
substring test. -/
theorem C4_theorem (r : Rec) (col : Field) (val pat s : String) :
    (advOne r col ("contains") val =
        reSearch (lowerStr val) (lowerStr ((r.get col).render))) ∧
      (globalOk (globalOnlyQuery pat) r =
        (if lowerStr (trimStr pat) = "" then true
         else Field.all.any (fun f => reSearch (lowerStr (trimStr pat))
           (lowerStr (r.get f).render)))) ∧
      ((∀ c ∈ pat.data, isRegexSpecial c = false) → reSearch pat s = litContains pat s) :=
  ⟨rfl, rfl, fun hp => reSearch_eq_litContains pat s hp⟩

/-- Claim C4, witness: a metacharacter-free operand searches literally. -/
theorem C4_witness :
    (∀ c ∈ ("abc").data, isRegexSpecial c = false) ∧
      reSearch ("abc") ("zzabcz") = litContains ("abc") ("zzabcz") :=
  ⟨by decide, (C4_theorem sampleRec Field.Description ("x") ("abc") ("zzabcz")).2.2 (by decide)⟩

/-- Claim C5, counterexample: a blank cell of a column present in the upload is
a float NaN and renders as "nan", not "<NA>"; the equals operator on such a
record matches "nan" and not "<NA>", refuting the claimed uniform "<NA>"
rendering. -/
theorem C5_counterexample :
    (¬ ∀ c : Cell, (c = Cell.nanMissing ∨ c = Cell.naMissing) → c.render = "<NA>") ∧
      evaluate (recordTable blankDescDF)
          (advOnlyQuery Field.Description ("equals") ("nan")) =
        recordTable blankDescDF ∧
      evaluate (recordTable blankDescDF)
          (advOnlyQuery Field.Description ("equals") ("<NA>")) = [] := by
  refine ⟨fun hall => absurd (hall Cell.nanMissing (Or.inl rfl)) (by decide), by decide, ?_⟩
  decide

/-- Claim C5, amended: a synthesized-column missing value renders as "<NA>"
and an uploaded-column missing value renders as "nan"; every operator sees a
record only through this one rendering (replacing a cell by the text of its
rendering never changes any mask). -/
theorem C5_theorem (r : Rec) (q : Query) (col : Field) :
    Cell.naMissing.render = "<NA>" ∧ Cell.nanMissing.render = "nan" ∧
      recordMask q (setFieldCell r col (Cell.text ((r.get col).render))) =
        recordMask q r :=
  ⟨rfl, rfl, recordMask_congr q (render_setFieldCell r col) rfl⟩

/-- Claim C6: the date-range constraint is inactive when a bound text is
empty, dropped without error when a bound fails to parse, always fails a
record with a missing CodeDateNumeric when active, and otherwise holds exactly
when the value lies between the parsed bounds. -/
theorem C6_theorem (q : Query) (r : Rec) :
    ((q.minStr = "" ∨ q.maxStr = "") → dateOk q r = true) ∧
      ((parseFloat q.minStr = none ∨ parseFloat q.maxStr = none) → dateOk q r = true) ∧
      (∀ lo hi, parseFloat q.minStr = some lo → parseFloat q.maxStr = some hi →
        r.codeDateNum = none → dateOk q r = false ∨ (q.minStr = "" ∨ q.maxStr = "")) ∧
      (∀ lo hi, parseFloat q.minStr = some lo → parseFloat q.maxStr = some hi →
        q.minStr ≠ "" → q.maxStr ≠ "" →
        (dateOk q r = true ↔ ∃ v, r.codeDateNum = some v ∧ lo ≤ v ∧ v ≤ hi)) := by
  refine ⟨?_, ?_, ?_, ?_⟩
  · intro h
    simp [dateOk, h]
  · intro h
    by_cases hempty : q.minStr = "" ∨ q.maxStr = ""
    · simp [dateOk, hempty]
    · rcases h with h | h
      · cases hx : parseFloat q.maxStr <;> simp [dateOk, hempty, h, hx]
      · cases hx : parseFloat q.minStr <;> simp [dateOk, hempty, h, hx]
  · intro lo hi h1 h2 hnone
    by_cases hempty : q.minStr = "" ∨ q.maxStr = ""
    · exact Or.inr hempty
    · left
      simp [dateOk, hempty, h1, h2, hnone]
  · intro lo hi h1 h2 hm1 hm2
    have hne : ¬ (q.minStr = "" ∨ q.maxStr = "") := fun hor => hor.elim hm1 hm2
    simp only [dateOk, if_neg hne, h1, h2]
    cases hv : r.codeDateNum with
    | none => simp
    | some v0 => simp

/-- Claim C6, witness with an active, well-formed range. -/
theorem C6_witness :
    parseFloat ("20230101") = some (((20230101 : ℕ) : ℚ)) ∧
      parseFloat ("20230601") = some (((20230601 : ℕ) : ℚ)) ∧
      (dateOk dateQuery dateRec = true ↔
        ∃ v, dateRec.codeDateNum = some v ∧
          (((20230101 : ℕ) : ℚ)) ≤ v ∧ v ≤ (((20230601 : ℕ) : ℚ))) :=
  ⟨by decide, by decide,
   (C6_theorem dateQuery dateRec).2.2.2 (((20230101 : ℕ) : ℚ)) (((20230601 : ℕ) : ℚ))
     (by decide) (by decide) (by decide) (by decide)⟩

/-- Claim C7: on a table produced by the flagging pipeline the engine output is
a subsequence of its input (stable relative to input order), and with
keepLatestOnly the re-sort is the identity - the result is the selected subset
in the table's own order, not re-sorted by date. -/
theorem C7_theorem (l : List Rec) (q : Query) :
    List.Sublist (evaluate (latestPerPvFlag l) q) (latestPerPvFlag l) ∧
      evaluate (latestPerPvFlag l) q =
        (if q.keepLatestOnly then dropDupPv ((latestPerPvFlag l).filter (recordMask q))
         else (latestPerPvFlag l).filter (recordMask q)) := by
  refine ⟨evaluate_sublist l q, ?_⟩
  cases hk : q.keepLatestOnly with
  | true => rw [evaluate_keepLatest_no_resort l q hk, if_pos rfl]
  | false =>
    rw [if_neg (by simp)]
    simp [evaluate, hk]

/-- Claim C8: for every record of the derived table, CodeDateNumeric is
exactly the numeric parse of the raw CodeDate text - a number when the text
parses, missing when the text is missing or non-numeric, never a default zero,
and the derivation is total. -/
theorem C8_theorem (df : DF) : ∀ r ∈ recordTable df,
    r.codeDateNum = toNumericCell (r.get Field.CodeDate) ∧
      (∀ s : String, r.get Field.CodeDate = Cell.text s → r.codeDateNum = parseFloat s) ∧
      ((r.get Field.CodeDate = Cell.nanMissing ∨ r.get Field.CodeDate = Cell.naMissing) →
        r.codeDateNum = none) ∧
      (∀ s : String, r.get Field.CodeDate = Cell.text s → parseFloat s = none →
        ¬ r.codeDateNum = some 0) ∧
      parseFloat ("") = none := by
  intro r hr
  have hmain : r.codeDateNum = toNumericCell (r.get Field.CodeDate) := by
    obtain ⟨x, hx, bb, hrx⟩ := mem_latestPerPvFlag hr
    obtain ⟨y, hy, hxy⟩ := List.mem_map.mp hx
    subst hrx
    rw [← hxy]
    rfl
  refine ⟨hmain, ?_, ?_, ?_, rfl⟩
  · intro s hs
    rw [hmain, hs]
    rfl
  · intro hs
    rcases hs with hs | hs <;> rw [hmain, hs] <;> rfl
  · intro s hs hps
    rw [hmain, hs]
    simp [toNumericCell, hps]

/-- Claim C8, witness: the 2024 record of the two-row table. -/
theorem C8_witness :
    c8sample ∈ recordTable twoRowDF ∧
      (c8sample.codeDateNum = toNumericCell (c8sample.get Field.CodeDate) ∧
        (∀ s : String, c8sample.get Field.CodeDate = Cell.text s →
          c8sample.codeDateNum = parseFloat s) ∧
        ((c8sample.get Field.CodeDate = Cell.nanMissing ∨
            c8sample.get Field.CodeDate = Cell.naMissing) →
          c8sample.codeDateNum = none) ∧
        (∀ s : String, c8sample.get Field.CodeDate = Cell.text s → parseFloat s = none →
          ¬ c8sample.codeDateNum = some 0) ∧
        parseFloat ("") = none) :=
  ⟨by decide, C8_theorem twoRowDF c8sample (by decide)⟩

/-- Claim C9: the all-empty query (no global term, no selected basic values,
no advanced filters, no date bounds, keep-latest off) returns the input table
unchanged. -/
theorem C9_theorem (t : List Rec) (q : Query)
    (hg : q.globalTerm = "") (hb : ∀ p ∈ q.basicFilters, p.2 = ([] : List String))
    (ha : q.advFilters = []) (hmin : q.minStr = "") (hmax : q.maxStr = "")
    (hk : q.keepLatestOnly = false) :
    evaluate t q = t := by
  have hmask : ∀ r ∈ t, recordMask q r = true := by
    intro r _
    have he : lowerStr (trimStr q.globalTerm) = "" := by rw [hg]; rfl
    have h1 : globalOk q r = true := by simp [globalOk, he]
    have h2 : basicOk q r = true := by
      simp only [basicOk, List.all_eq_true]
      intro p hp
      simp [basicOne, hb p hp]
    have h3 : advOk q r = true := by simp [advOk, ha]
    have h4 : dateOk q r = true := by simp [dateOk, hmin]
    simp [recordMask, h1, h2, h3, h4]
  simp only [evaluate, hk]
  rw [if_neg (by simp)]
  exact List.filter_eq_self.mpr hmask

/-- Claim C9, witness: the empty query on the derived two-row table. -/
theorem C9_witness :
    (emptyQuery.globalTerm = "" ∧ (∀ p ∈ emptyQuery.basicFilters, p.2 = ([] : List String)) ∧
        emptyQuery.advFilters = [] ∧ emptyQuery.minStr = "" ∧ emptyQuery.maxStr = "" ∧
        emptyQuery.keepLatestOnly = false) ∧
      evaluate (recordTable twoRowDF) emptyQuery = recordTable twoRowDF :=
  ⟨⟨rfl, by decide, rfl, rfl, rfl, rfl⟩,
   C9_theorem (recordTable twoRowDF) emptyQuery rfl (by decide) rfl rfl rfl rfl⟩

/-- Claim C10: a basic filter accepts a record exactly when its rendered value
is case-sensitively equal to a selected value; the in-list operator compares
its semicolon-split entries case-sensitively; the equals operator compares
case-insensitively. -/
theorem C10_theorem (r : Rec) (col : Field) (sel : List String) (val : String) :
    (sel ≠ [] → evaluate [r] (basicOnlyQuery col sel) =
        (if (r.get col).render ∈ sel then [r] else [])) ∧
      (evaluate [r] (advOnlyQuery col ("in list") val) =
        (if (r.get col).render ∈ splitList val then [r] else [])) ∧
      (evaluate [r] (advOnlyQuery col ("equals") val) =
        (if lowerStr ((r.get col).render) = lowerStr val then [r] else [])) := by
  refine ⟨?_, ?_, ?_⟩
  · intro hsel
    rw [evaluate_singleton r (basicOnlyQuery col sel) rfl, recordMask_basicOnly]
    by_cases hm : (r.get col).render ∈ sel
    · simp [basicOne, hsel, hm]
    · simp [basicOne, hsel, hm]
  · rw [evaluate_singleton r (advOnlyQuery col ("in list") val) rfl, recordMask_advOnly,
      advOne_inlist]
    by_cases hm : (r.get col).render ∈ splitList val
    · simp [hm]
    · simp [hm]
  · rw [evaluate_singleton r (advOnlyQuery col ("equals") val) rfl, recordMask_advOnly,
      advOne_equals]
    by_cases hm : lowerStr ((r.get col).render) = lowerStr val
    · simp [hm]
    · simp [hm]

/-- Claim C10, witness: one selected value on a concrete record. -/
theorem C10_witness :
    (["Round"] : List String) ≠ [] ∧
      evaluate [c8sample] (basicOnlyQuery Field.Shape (["Round"])) =
        (if (c8sample.get Field.Shape).render ∈ (["Round"] : List String)
         then [c8sample] else []) :=
  ⟨by decide, (C10_theorem c8sample Field.Shape (["Round"]) ("x")).1 (by decide)⟩

end PVFinder
